import Mathlib

/-!
Verification of the EchoMeet signaling server and WebRTC client core.

The server (room registry, signal router, chat relay) keeps its state in two
JavaScript `Map`s (`rooms`, `userSocketMap`); we embed those as ordered
association lists with string keys, mirroring `Map` semantics: `mget` returns
the first binding, `mset` updates an existing binding in place or appends a
new one at the end (JS `Map.set`), and `mdel` removes the binding
(JS `Map.delete`).  Every handler is translated as a pure function from the
server state to a new state plus the ordered list of emitted socket events.

The client negotiation engine (`webrtc.ts`, current class) is embedded as a
per-peer state machine: each socket callback becomes one atomic transition
emitting a trace of RTC engine calls (`setLocalDescription`,
`setRemoteDescription`, `addIceCandidate`, signal sends).  The track router
and the peer-connection bookkeeping are embedded as pure functions on lists.
-/

namespace EchoMeet

/-! ## Ordered association lists (JS `Map` semantics) -/

/-- First binding of key `k` (JS `Map.get`). -/
def mget {α : Type} (l : List (String × α)) (k : String) : Option α :=
  match l with
  | [] => none
  | (k', v) :: rest => if k' = k then some v else mget rest k

/-- Update the binding of `k` in place, or append it (JS `Map.set`). -/
def mset {α : Type} (l : List (String × α)) (k : String) (v : α) :
    List (String × α) :=
  match l with
  | [] => [(k, v)]
  | (k', v') :: rest => if k' = k then (k, v) :: rest else (k', v') :: mset rest k v

/-- Remove the binding of `k` (JS `Map.delete`). -/
def mdel {α : Type} (l : List (String × α)) (k : String) : List (String × α) :=
  l.filter (fun p => p.1 ≠ k)

/-- The keys of an association list, in order. -/
def keys {α : Type} (l : List (String × α)) : List String :=
  l.map Prod.fst

/-! ## Server data model (`rooms`, `userSocketMap`, socket.io delivery groups) -/

/-- A room member: `{ socketId, nickname }` stored under the user id. -/
structure Member where
  socketId : String
  nickname : String
deriving DecidableEq

/-- A room: ordered mapping `UserId → Member`. -/
abbrev RoomMap := List (String × Member)

/-- The rooms registry: ordered mapping `RoomId → Room`. -/
abbrev RoomsMap := List (String × RoomMap)

/-- Payload of a server-emitted socket event. -/
inductive Payload where
  | memberList (l : List (String × String × String))
  | userInfo (userId socketId nickname : String)
  | leftInfo (userId : String)
  | count (n : Nat)
  | chat (id senderId senderNickname content timestamp : String)
  | sig (fromUser : String) (signal : String)
deriving DecidableEq

/-- Delivery target of an emitted event: a single socket (`socket.emit` /
`io.to(socketId)`), a room minus one socket (`socket.to(roomId)`), or a whole
room (`io.to(roomId)`). -/
inductive Target where
  | socket (sid : String)
  | roomExcept (roomId sid : String)
  | room (roomId : String)
deriving DecidableEq

/-- One emitted socket event. -/
structure SEvent where
  target : Target
  name : String
  payload : Payload
deriving DecidableEq

/-- Whole server state: the registry (`rooms`), the global
`UserId → SocketId` index (`userSocketMap`) and the socket.io delivery
groups (which sockets are joined to which socket.io room). -/
structure ServerState where
  rooms : RoomsMap
  userSocketMap : List (String × String)
  groups : List (String × List String)
deriving DecidableEq

/-- `socket.join(roomId)`: add the socket to the room's delivery group. -/
def addToGroup (gs : List (String × List String)) (r s : String) :
    List (String × List String) :=
  match mget gs r with
  | none => mset gs r [s]
  | some g => if s ∈ g then gs else mset gs r (g ++ [s])

/-- `socket.leave(roomId)`: remove the socket from the room's delivery group. -/
def removeFromGroup (gs : List (String × List String)) (r s : String) :
    List (String × List String) :=
  match mget gs r with
  | none => gs
  | some g => mset gs r (g.filter (fun x => x ≠ s))

/-- The member list sent as `existing-participants`:
`[{userId, socketId, nickname}]`. -/
def memberListOf (room : RoomMap) : List (String × String × String) :=
  room.map (fun p => (p.1, p.2.socketId, p.2.nickname))

/-! ## Server operation: `join-room` -/

/-- First stage of `join-room`: scan the room for an entry with the same
user id; when found this is a rejoin and the stale entry is deleted. -/
def rejoinInfo (roomId userId : String) (rooms : RoomsMap) : Bool × RoomsMap :=
  match mget rooms roomId with
  | some parts =>
    match mget parts userId with
    | some _ => (true, mset rooms roomId (mdel parts userId))
    | none => (false, rooms)
  | none => (false, rooms)

/-- Second stage of `join-room`: create the room if absent. -/
def ensureRoom (roomId : String) (rooms : RoomsMap) : RoomsMap :=
  match mget rooms roomId with
  | none => mset rooms roomId []
  | some _ => rooms

/-- The `join-room` handler (server, lines 92-159): detect a rejoin (same
user id already in the room) and drop the stale entry, join the delivery
group, update the global index, create the room if absent, insert the member,
then emit `existing-participants` to the joiner, `userRejoined`/`userJoined`
to the rest of the room, and `participant-count` to the whole room. -/
def joinRoom (s roomId userId nickname : String) (st : ServerState) :
    ServerState × List SEvent :=
  let rj := rejoinInfo roomId userId st.rooms
  let isRejoin := rj.1
  let groups1 := addToGroup st.groups roomId s
  let usm1 := mset st.userSocketMap userId s
  let rooms2 := ensureRoom roomId rj.2
  let content := (mget rooms2 roomId).getD []
  let rooms3 := mset rooms2 roomId (mset content userId ⟨s, nickname⟩)
  let parts := (mget rooms3 roomId).getD []
  (⟨rooms3, usm1, groups1⟩,
   [⟨Target.socket s, "existing-participants", Payload.memberList (memberListOf parts)⟩,
    ⟨Target.roomExcept roomId s, if isRejoin then "userRejoined" else "userJoined",
      Payload.userInfo userId s nickname⟩,
    ⟨Target.room roomId, "participant-count", Payload.count parts.length⟩])

/-! ## Server operation: `leave-room` -/

/-- The `leave-room` handler (server, lines 162-187): delete the user from the
room if the room exists, destroying the room when it becomes empty (else
emitting `participant-count`); unconditionally drop every global-index entry
that maps to the caller's socket; emit `userLeft` to the rest of the room;
leave the delivery group. -/
def leaveRoom (s roomId userId : String) (st : ServerState) :
    ServerState × List SEvent :=
  let re : RoomsMap × List SEvent :=
    match mget st.rooms roomId with
    | some parts =>
      let parts1 := mdel parts userId
      if parts1.isEmpty then (mdel st.rooms roomId, [])
      else (mset st.rooms roomId parts1,
            [⟨Target.room roomId, "participant-count", Payload.count parts1.length⟩])
    | none => (st.rooms, [])
  let usm1 := st.userSocketMap.filter (fun p => p.2 ≠ s)
  let groups1 := removeFromGroup st.groups roomId s
  (⟨re.1, usm1, groups1⟩,
   re.2 ++ [⟨Target.roomExcept roomId s, "userLeft", Payload.leftInfo userId⟩])

/-! ## Server operation: `disconnect` -/

/-- One room's sweep inside the `disconnect` handler: walk the member list;
each member pinned to the disconnecting socket is removed, a `userLeft` is
emitted, and either the room is left for deletion (became empty) or a
`participant-count` with the current size is emitted.  `kept` accumulates the
members already visited and retained. -/
def discSweep (s roomId : String) (kept : RoomMap) :
    RoomMap → RoomMap × List SEvent
  | [] => (kept, [])
  | p :: rest =>
    if p.2.socketId = s then
      let remaining := kept.length + rest.length
      let cnt : List SEvent :=
        if remaining = 0 then []
        else [⟨Target.room roomId, "participant-count", Payload.count remaining⟩]
      let k := discSweep s roomId kept rest
      (k.1, ⟨Target.roomExcept roomId s, "userLeft", Payload.leftInfo p.1⟩ :: cnt ++ k.2)
    else
      discSweep s roomId (kept ++ [p]) rest

/-- Net room result of the disconnect sweep: the swept content, or `none`
when the room was nonempty and the sweep emptied it (the handler then deletes
the room; a room that was already empty is never deleted). -/
def discProcessRoom (s roomId : String) (parts : RoomMap) :
    Option RoomMap × List SEvent :=
  let r := discSweep s roomId [] parts
  (if ¬ parts.isEmpty ∧ r.1.isEmpty then none else some r.1, r.2)

/-- The `disconnect` handler (server, lines 239-266): sweep every room,
removing every member pinned to the disconnecting socket, then drop every
global-index entry mapping to that socket.  The socket.io runtime also
removes the socket from all delivery groups. -/
def disconnectSocket (s : String) (st : ServerState) :
    ServerState × List SEvent :=
  let results := st.rooms.map (fun rc => (rc.1, discProcessRoom s rc.1 rc.2))
  let rooms1 := results.filterMap (fun rc => (rc.2.1).map (fun c => (rc.1, c)))
  let evs := (results.map (fun rc => rc.2.2)).flatten
  let usm1 := st.userSocketMap.filter (fun p => p.2 ≠ s)
  let groups1 := st.groups.map (fun g => (g.1, g.2.filter (fun x => x ≠ s)))
  (⟨rooms1, usm1, groups1⟩, evs)

/-! ## Server operations: `signal` and `chat-message` -/

/-- The `signal` handler (server, lines 203-236): look the target user up in
the global index; if found, forward `{from, signal}` to that socket exactly
once (the `isValidUser` room scan is computed only for logging); otherwise
log and drop.  The registry is never mutated. -/
def signalHandler (toUser fromUser sigPayload : String) (st : ServerState) :
    ServerState × List SEvent :=
  match mget st.userSocketMap toUser with
  | some targetSocketId =>
    let _isValidUser := st.rooms.any (fun rc => (mget rc.2 fromUser).isSome)
    (st, [⟨Target.socket targetSocketId, "signal", Payload.sig fromUser sigPayload⟩])
  | none => (st, [])

/-- The `chat-message` handler (server, lines 190-200): rebroadcast the
payload as `receiveMessage` to the room's delivery group minus the sender. -/
def chatMessage (s roomId id senderId senderNickname content timestamp : String)
    (st : ServerState) : ServerState × List SEvent :=
  (st, [⟨Target.roomExcept roomId s, "receiveMessage",
         Payload.chat id senderId senderNickname content timestamp⟩])

/-- The delivery group of a room (empty when the room is unknown). -/
def groupOf (st : ServerState) (r : String) : List String :=
  (mget st.groups r).getD []

/-- Which sockets a target resolves to at delivery time. -/
def recipients (st : ServerState) : Target → List String
  | Target.socket sid => [sid]
  | Target.roomExcept r sid => (groupOf st r).filter (fun x => x ≠ sid)
  | Target.room r => groupOf st r

/-! ## Registry operation sequences -/

/-- A registry operation, tagged with the socket it arrives on. -/
inductive RegOp where
  | join (s roomId userId nickname : String)
  | leave (s roomId userId : String)
  | disc (s : String)
deriving DecidableEq

/-- State effect of one registry operation. -/
def applyOp (st : ServerState) (o : RegOp) : ServerState :=
  match o with
  | RegOp.join s r u n => (joinRoom s r u n st).1
  | RegOp.leave s r u => (leaveRoom s r u st).1
  | RegOp.disc s => (disconnectSocket s st).1

/-- The initially empty registry. -/
def initState : ServerState := ⟨[], [], []⟩

/-- Registry state after a sequence of operations from the empty registry. -/
def runOps (ops : List RegOp) : ServerState :=
  ops.foldl applyOp initState

/-- Invariant (a): no room in the registry is empty. -/
def noEmptyRooms (st : ServerState) : Prop :=
  ∀ rc ∈ st.rooms, rc.2 ≠ []

/-- Invariant (b): within every room each `UserId` keys at most one entry. -/
def perRoomUnique (st : ServerState) : Prop :=
  ∀ rc ∈ st.rooms, (keys rc.2).Nodup

/-- Invariant (c): the global index maps every user in some room to the
socket stored in that user's member entry, and contains no user that is in
no room. -/
def indexConsistent (st : ServerState) : Prop :=
  (∀ rc ∈ st.rooms, ∀ e ∈ rc.2, mget st.userSocketMap e.1 = some e.2.socketId) ∧
  (∀ p ∈ st.userSocketMap, ∃ rc ∈ st.rooms, ∃ e ∈ rc.2, e.1 = p.1)

/-- Auxiliary invariant carried through the induction for the registry:
room keys are unique (they key a JS `Map`), no room is empty, and user keys
are unique within every room. -/
def RegInv (st : ServerState) : Prop :=
  (keys st.rooms).Nodup ∧ ∀ rc ∈ st.rooms, rc.2 ≠ [] ∧ (keys rc.2).Nodup

/-- A room swept of the members pinned to socket `s`. -/
def sweepRoom (s : String) (parts : RoomMap) : RoomMap :=
  parts.filter (fun p => p.2.socketId ≠ s)

/-- Net rooms-mapping effect of the disconnect sweep: every room loses its
members pinned to `s`; a room that was nonempty and lost all its members is
deleted. -/
def disconnectRooms (s : String) (rooms : RoomsMap) : RoomsMap :=
  rooms.filterMap (fun rc =>
    if ¬ rc.2.isEmpty ∧ (sweepRoom s rc.2).isEmpty then none
    else some (rc.1, sweepRoom s rc.2))

/-- Rooms-mapping effect of one `leave-room` (registry part only). -/
def leaveRoomsOp (roomId userId : String) (rooms : RoomsMap) : RoomsMap :=
  match mget rooms roomId with
  | some parts =>
    let parts1 := mdel parts userId
    if parts1.isEmpty then mdel rooms roomId else mset rooms roomId parts1
  | none => rooms

/-- The users of a room whose member entry carries socket `s`, in order. -/
def pinnedUsers (s : String) (c : RoomMap) : List String :=
  (c.filter (fun p => p.2.socketId = s)).map Prod.fst

/-- All `(room, user)` pairs whose member entry carries socket `s`, in room
order then member order — the pairs the disconnect sweep removes. -/
def pinnedPairs (s : String) (rooms : RoomsMap) : List (String × String) :=
  (rooms.map (fun rc => (pinnedUsers s rc.2).map (fun u => (rc.1, u)))).flatten

/-- Applying `leave-room` from socket `s` for every `(room, user)` pair
pinned to `s`, in sweep order. -/
def leaveFold (s : String) (st : ServerState) : ServerState :=
  (pinnedPairs s st.rooms).foldl (fun acc pr => (leaveRoom s pr.1 pr.2 acc).1) st

instance (st : ServerState) : Decidable (noEmptyRooms st) := by
  unfold noEmptyRooms
  infer_instance

instance (st : ServerState) : Decidable (perRoomUnique st) := by
  unfold perRoomUnique
  infer_instance

instance (st : ServerState) : Decidable (indexConsistent st) := by
  unfold indexConsistent
  infer_instance

instance (st : ServerState) : Decidable (RegInv st) := by
  unfold RegInv
  infer_instance

/-- Concrete operation sequence: user `u` joins room `R` over socket `s1`,
rejoins over socket `s2` (page refresh), then the orphaned socket `s1`
issues a `leave-room` for the same pair. -/
def staleLeaveOps : List RegOp :=
  [RegOp.join "s1" "R" "u" "n", RegOp.join "s2" "R" "u" "n",
   RegOp.leave "s1" "R" "u"]

/-- Concrete registry with a two-member room, for rejoin scenarios. -/
def twoMemberState : ServerState :=
  ⟨[("R", [("u1", ⟨"s1", "A"⟩), ("u2", ⟨"s2", "B"⟩)])],
   [("u1", "s1"), ("u2", "s2")], [("R", ["s1", "s2"])]⟩

/-- Concrete registry with a one-member room, for missing-pair leaves. -/
def oneMemberState : ServerState :=
  ⟨[("R", [("u1", ⟨"s1", "A"⟩)])], [("u1", "s1")], [("R", ["s1"])]⟩

/-! ## Client negotiation state machine (webrtc.ts, one peer)

Each socket callback of the client (`signal` offer/answer/ICE branches,
`onnegotiationneeded` after its debounce, and the offer part of
`initiateCall`) is embedded as one atomic transition on the per-peer state,
assuming the local stream is ready (otherwise every handler returns before
touching the negotiation state).  The RTC engine calls made by a transition
are recorded in order; `setLocalDescription` records the signaling state the
connection is in at the moment of the call. -/

/-- RTC signaling state of the underlying connection. -/
inductive SigState where
  | stable
  | haveLocalOffer
  | haveRemoteOffer
deriving DecidableEq

/-- Per-peer client negotiation state: whether a connection object exists,
its signaling state, the `makingOffer` flag, whether a remote description has
been applied, and the queued ICE candidates (`pendingIce[userId]`). -/
structure PeerState where
  connected : Bool
  sigState : SigState
  makingOffer : Bool
  remoteDescSet : Bool
  pendingIce : List Nat
deriving DecidableEq

/-- An RTC engine call or signal send recorded by a transition.
`setLocalOffer`/`setLocalAnswer`/`setLocalRollback` carry the signaling state
at the moment `setLocalDescription` is invoked. -/
inductive CAction where
  | setLocalOffer (stateBefore : SigState)
  | setLocalAnswer (stateBefore : SigState)
  | setLocalRollback (stateBefore : SigState)
  | setRemoteOffer
  | setRemoteAnswer
  | addIceCandidate (c : Nat)
  | sendOfferSig
  | sendAnswerSig
deriving DecidableEq

/-- An inbound event of the per-peer machine. -/
inductive CEvent where
  | initiate
  | negotiationNeeded
  | recvOffer
  | recvAnswer
  | recvIce (c : Nat)
deriving DecidableEq

/-- `createPeerConnection`: a fresh `RTCPeerConnection` (stable, no remote
description); the per-user `pendingIce` queue and `makingOffer` flag are
keyed by user id and survive. -/
def newConn (st : PeerState) : PeerState :=
  { st with connected := true, sigState := SigState.stable, remoteDescSet := false }

/-- One atomic transition of the per-peer negotiation machine, translated
from the `signal` handler (lines 78-229), `onnegotiationneeded`
(lines 770-816) and `initiateCall` (lines 484-542) of `webrtc.ts`. -/
def stepPeer (polite : Bool) (st : PeerState) (e : CEvent) :
    PeerState × List CAction :=
  match e with
  | CEvent.recvIce c =>
    if ¬ st.connected ∨ ¬ st.remoteDescSet then
      ({ st with pendingIce := st.pendingIce ++ [c] }, [])
    else (st, [CAction.addIceCandidate c])
  | CEvent.recvOffer =>
    let collision := st.connected ∧ (st.makingOffer ∨ st.sigState ≠ SigState.stable)
    if collision ∧ ¬ polite then
      if ¬ st.makingOffer then
        ({ st with sigState := SigState.haveLocalOffer, makingOffer := false },
         [CAction.setLocalOffer st.sigState, CAction.sendOfferSig])
      else (st, [])
    else
      let pre : PeerState × List CAction :=
        if ¬ st.connected then (newConn st, [])
        else if st.sigState ≠ SigState.stable ∧ polite then
          ({ st with sigState := SigState.stable },
           [CAction.setLocalRollback st.sigState])
        else (st, [])
      let st1 := pre.1
      let drained := st1.pendingIce.map CAction.addIceCandidate
      ({ st1 with sigState := SigState.stable, remoteDescSet := true,
                  pendingIce := [] },
       pre.2 ++ [CAction.setRemoteOffer] ++ drained ++
         [CAction.setLocalAnswer SigState.haveRemoteOffer, CAction.sendAnswerSig])
  | CEvent.recvAnswer =>
    if ¬ st.connected then (st, [])
    else if st.sigState = SigState.haveLocalOffer then
      let drained := st.pendingIce.map CAction.addIceCandidate
      ({ st with sigState := SigState.stable, remoteDescSet := true,
                 pendingIce := [], makingOffer := false },
       CAction.setRemoteAnswer :: drained)
    else (st, [])
  | CEvent.negotiationNeeded =>
    if st.makingOffer then (st, [])
    else if st.sigState ≠ SigState.stable then (st, [])
    else
      ({ st with sigState := SigState.haveLocalOffer, makingOffer := false },
       [CAction.setLocalOffer st.sigState, CAction.sendOfferSig])
  | CEvent.initiate =>
    let st1 := if st.connected then st else newConn st
    if polite then
      if st1.makingOffer then (st1, [])
      else if st1.sigState ≠ SigState.stable then (st1, [])
      else
        ({ st1 with sigState := SigState.haveLocalOffer, makingOffer := false },
         [CAction.setLocalOffer st1.sigState, CAction.sendOfferSig])
    else (st1, [])

/-- Run the per-peer machine over a list of events, concatenating traces. -/
def runPeerAux (polite : Bool) (st : PeerState) :
    List CEvent → PeerState × List CAction
  | [] => (st, [])
  | e :: es =>
    let r1 := stepPeer polite st e
    let r2 := runPeerAux polite r1.1 es
    (r2.1, r1.2 ++ r2.2)

/-- The initial per-peer state: no connection yet, nothing queued. -/
def initPeer : PeerState :=
  ⟨false, SigState.stable, false, false, []⟩

/-- Execution of the per-peer machine from the initial state. -/
def runPeer (polite : Bool) (es : List CEvent) : PeerState × List CAction :=
  runPeerAux polite initPeer es

/-- The ICE candidates actually added by a trace, in order. -/
def iceAdds (l : List CAction) : List Nat :=
  l.filterMap (fun a =>
    match a with
    | CAction.addIceCandidate c => some c
    | _ => none)

/-! ## Client track router (webrtc.ts `ontrack`, lines 614-765) -/

/-- Kind of a media track. -/
inductive TrackKind where
  | audio
  | video
deriving DecidableEq

/-- An inbound media track with the fields the router inspects:
label, `displaySurface` setting presence, and resolution. -/
structure Track where
  kind : TrackKind
  label : String
  displaySurface : Bool
  width : Nat
  height : Nat
  tid : Nat
deriving DecidableEq

/-- Lower-cased characters of a string (`label.toLowerCase()`). -/
def lowerChars (s : String) : List Char :=
  s.toList.map Char.toLower

/-- Whether `needle` is a leading segment of `hay`. -/
def leadSeg : List Char → List Char → Bool
  | [], _ => true
  | _ :: _, [] => false
  | a :: as, b :: bs => a == b && leadSeg as bs

/-- Whether `needle` occurs contiguously inside `hay` (JS `includes`). -/
def hasSubChars (needle : List Char) : List Char → Bool
  | [] => leadSeg needle []
  | c :: cs => leadSeg needle (c :: cs) || hasSubChars needle cs

/-- `hay.toLowerCase().includes(needle)`. -/
def strIncludes (hay needle : String) : Bool :=
  hasSubChars needle.toList (lowerChars hay)

/-- The label-based screen-share test used both for classification and for
removal: the label is nonempty (JS truthiness) and contains one of
`screen`, `window`, `tab`, `display` after lower-casing. -/
def labelIsScreen (label : String) : Bool :=
  label != "" &&
    (strIncludes label "screen" || strIncludes label "window" ||
     strIncludes label "tab" || strIncludes label "display")

/-- The screen-share classification of an inbound track: screen-like label,
or a `displaySurface` setting, or a video track larger than 1000×700. -/
def isScreenTrack (t : Track) : Bool :=
  labelIsScreen t.label || t.displaySurface ||
    (t.kind == TrackKind.video && decide (t.width > 1000) && decide (t.height > 700))

/-- Remove the first track satisfying `p` (JS `find` + `removeTrack`). -/
def removeFirstTrack (p : Track → Bool) : List Track → List Track
  | [] => []
  | t :: ts => if p t then ts else t :: removeFirstTrack p ts

/-- The `ontrack` routing of an inbound track into the peer's remote stream:
a screen-share video track removes every video track with a screen-like
label and is appended; any other track removes the first non-screen-labelled
track of the same kind and is appended. -/
def ontrackUpdate (t : Track) (stream : List Track) : List Track :=
  if isScreenTrack t && t.kind == TrackKind.video then
    stream.filter (fun tr => !(tr.kind == TrackKind.video && labelIsScreen tr.label))
      ++ [t]
  else
    removeFirstTrack
      (fun tr => tr.kind == t.kind && !(labelIsScreen tr.label)) stream ++ [t]

/-- A concrete inbound video track classified as screen-share only by its
resolution (label carries no screen word). -/
def bigTrack : Track := ⟨TrackKind.video, "big", false, 1920, 1080, 1⟩

/-- A concrete inbound video track classified as screen-share by its label. -/
def screenLabelTrack : Track := ⟨TrackKind.video, "screen", false, 640, 480, 2⟩

/-- A concrete audio track and a concrete camera track. -/
def audioTrack : Track := ⟨TrackKind.audio, "mic", false, 0, 0, 3⟩

/-- A concrete camera video track (not screen-classified). -/
def cameraTrack : Track := ⟨TrackKind.video, "cam", false, 640, 480, 4⟩

/-- Concrete event sequence driving the impolite peer into a glare:
a connection is created without an offer (impolite side), local tracks then
fire `onnegotiationneeded` producing an offer, and a remote offer arrives
while in `have-local-offer`. -/
def glareEvents : List CEvent :=
  [CEvent.initiate, CEvent.negotiationNeeded, CEvent.recvOffer]

/-! ## Client peer-connection bookkeeping (webrtc.ts, lines 924-937) -/

/-- The per-user bookkeeping of the client manager touched by
`removePeerConnection`: each map is keyed by the remote user id.  Connection
objects and timestamps are abstracted as numeric tokens. -/
structure ClientMgrState where
  peerConnections : List (String × Nat)
  connectionCreationTime : List (String × Nat)
  makingOfferMap : List (String × Bool)
  ignoreOfferMap : List (String × Bool)
  pendingIceMap : List (String × List Nat)
deriving DecidableEq

/-- A concrete manager state with no connection for `u` but candidates
queued under `u`. -/
def mgrState : ClientMgrState := ⟨[], [], [], [], [("u", [1, 2])]⟩

/-- `removePeerConnection(userId)`: when a connection exists, close it and
delete the user from every per-user map; otherwise do nothing at all. -/
def removePeerConnection (userId : String) (st : ClientMgrState) : ClientMgrState :=
  match mget st.peerConnections userId with
  | none => st
  | some _ =>
    { peerConnections := mdel st.peerConnections userId
      connectionCreationTime := mdel st.connectionCreationTime userId
      makingOfferMap := mdel st.makingOfferMap userId
      ignoreOfferMap := mdel st.ignoreOfferMap userId
      pendingIceMap := mdel st.pendingIceMap userId }

/-! ## Lemmas about the association-list primitives -/

theorem mget_mset_self {α : Type} (l : List (String × α)) (k : String) (v : α) :
    mget (mset l k v) k = some v := by
  induction l with
  | nil => simp [mset, mget]
  | cons p rest ih =>
    obtain ⟨k', v'⟩ := p
    by_cases h : k' = k
    · simp [mset, h, mget]
    · simp [mset, h, mget, ih]

theorem mget_mset_ne {α : Type} (l : List (String × α)) (k k' : String) (v : α)
    (h : k' ≠ k) : mget (mset l k v) k' = mget l k' := by
  induction l with
  | nil => simp [mset, mget, Ne.symm h]
  | cons p rest ih =>
    obtain ⟨k₀, v₀⟩ := p
    by_cases hk : k₀ = k
    · subst hk
      simp [mset, mget, Ne.symm h]
    · simp [mset, hk, mget, ih]

theorem mset_mset_self {α : Type} (l : List (String × α)) (k : String) (v w : α) :
    mset (mset l k v) k w = mset l k w := by
  induction l with
  | nil => simp [mset]
  | cons p rest ih =>
    obtain ⟨k₀, v₀⟩ := p
    by_cases hk : k₀ = k
    · simp [mset, hk]
    · simp [mset, hk, ih]

theorem mget_eq_none_iff {α : Type} (l : List (String × α)) (k : String) :
    mget l k = none ↔ k ∉ keys l := by
  induction l with
  | nil => simp [mget, keys]
  | cons p rest ih =>
    obtain ⟨k₀, v₀⟩ := p
    by_cases hk : k₀ = k
    · simp [mget, hk, keys]
    · simp [mget, hk, keys, ih, Ne.symm hk]

theorem mset_of_mget_none {α : Type} (l : List (String × α)) (k : String) (v : α)
    (h : mget l k = none) : mset l k v = l ++ [(k, v)] := by
  induction l with
  | nil => simp [mset]
  | cons p rest ih =>
    obtain ⟨k₀, v₀⟩ := p
    by_cases hk : k₀ = k
    · simp [mget, hk] at h
    · simp [mget, hk] at h
      simp [mset, hk, ih h]

theorem mset_self_of_mget {α : Type} (l : List (String × α)) (k : String) (v : α)
    (h : mget l k = some v) : mset l k v = l := by
  induction l with
  | nil => simp [mget] at h
  | cons p rest ih =>
    obtain ⟨k₀, v₀⟩ := p
    by_cases hk : k₀ = k
    · simp [mget, hk] at h
      simp [mset, hk, h]
    · simp [mget, hk] at h
      simp [mset, hk, ih h]

theorem mdel_of_mget_none {α : Type} (l : List (String × α)) (k : String)
    (h : mget l k = none) : mdel l k = l := by
  rw [mget_eq_none_iff] at h
  simp only [keys] at h
  simp only [mdel]
  apply List.filter_eq_self.2
  intro p hp
  have hpk : p.1 ≠ k := fun e => h (e ▸ List.mem_map_of_mem Prod.fst hp)
  simpa using hpk

theorem mget_mdel_self {α : Type} (l : List (String × α)) (k : String) :
    mget (mdel l k) k = none := by
  induction l with
  | nil => simp [mdel, mget]
  | cons p rest ih =>
    obtain ⟨k₀, v₀⟩ := p
    by_cases hk : k₀ = k
    · simpa [mdel, List.filter_cons, hk] using ih
    · simpa [mdel, List.filter_cons, hk, mget] using ih

theorem mem_of_mget {α : Type} (l : List (String × α)) (k : String) (v : α)
    (h : mget l k = some v) : (k, v) ∈ l := by
  induction l with
  | nil => simp [mget] at h
  | cons p rest ih =>
    obtain ⟨k₀, v₀⟩ := p
    by_cases hk : k₀ = k
    · simp [mget, hk] at h
      simp [hk, h]
    · simp [mget, hk] at h
      exact List.mem_cons_of_mem _ (ih h)

theorem mem_mset {α : Type} (l : List (String × α)) (k : String) (v : α)
    (e : String × α) (h : e ∈ mset l k v) : e = (k, v) ∨ e ∈ l := by
  induction l with
  | nil => simpa [mset] using h
  | cons p rest ih =>
    obtain ⟨k₀, v₀⟩ := p
    by_cases hk : k₀ = k
    · simp [mset, hk] at h
      rcases h with h | h
      · exact Or.inl h
      · exact Or.inr (List.mem_cons_of_mem _ h)
    · simp [mset, hk] at h
      rcases h with h | h
      · exact Or.inr (by simp [h])
      · rcases ih h with h' | h'
        · exact Or.inl h'
        · exact Or.inr (List.mem_cons_of_mem _ h')

theorem keys_mset_of_mem {α : Type} (l : List (String × α)) (k : String) (v : α)
    (h : k ∈ keys l) : keys (mset l k v) = keys l := by
  induction l with
  | nil => simp [keys] at h
  | cons p rest ih =>
    obtain ⟨k₀, v₀⟩ := p
    by_cases hk : k₀ = k
    · simp [mset, hk, keys]
    · have h' : k ∈ keys rest := by
        simp only [keys, List.map_cons, List.mem_cons] at h
        rcases h with h0 | h0
        · exact absurd h0.symm hk
        · simpa [keys] using h0
      have hrec := ih h'
      simp only [mset, if_neg hk, keys, List.map_cons]
      simp only [keys] at hrec
      rw [hrec]

theorem keys_mset_of_not_mem {α : Type} (l : List (String × α)) (k : String) (v : α)
    (h : k ∉ keys l) : keys (mset l k v) = keys l ++ [k] := by
  have h' : mget l k = none := (mget_eq_none_iff l k).2 h
  rw [mset_of_mget_none l k v h']
  simp [keys]

theorem keys_nodup_mset {α : Type} (l : List (String × α)) (k : String) (v : α)
    (h : (keys l).Nodup) : (keys (mset l k v)).Nodup := by
  by_cases hm : k ∈ keys l
  · rwa [keys_mset_of_mem l k v hm]
  · rw [keys_mset_of_not_mem l k v hm]
    simpa [List.nodup_append] using ⟨h, hm⟩

theorem mdel_sublist {α : Type} (l : List (String × α)) (k : String) :
    (mdel l k).Sublist l :=
  List.filter_sublist l

theorem keys_mdel_sublist {α : Type} (l : List (String × α)) (k : String) :
    (keys (mdel l k)).Sublist (keys l) :=
  (mdel_sublist l k).map Prod.fst

theorem mem_mset_of_nodup {α : Type} (l : List (String × α)) (k : String) (v : α)
    (hn : (keys l).Nodup) (e : String × α) (h : e ∈ mset l k v) :
    e = (k, v) ∨ (e ∈ l ∧ e.1 ≠ k) := by
  induction l with
  | nil =>
    simp only [mset, List.mem_singleton] at h
    exact Or.inl h
  | cons p rest ih =>
    obtain ⟨k₀, v₀⟩ := p
    have hn1 : k₀ ∉ keys rest := by
      simp only [keys, List.map_cons] at hn
      exact (List.nodup_cons.1 hn).1
    have hn2 : (keys rest).Nodup := by
      simp only [keys, List.map_cons] at hn
      exact (List.nodup_cons.1 hn).2
    by_cases hk : k₀ = k
    · subst hk
      simp only [mset, eq_self_iff_true, if_true, List.mem_cons] at h
      rcases h with h | h
      · exact Or.inl h
      · refine Or.inr ⟨List.mem_cons_of_mem _ h, fun he => ?_⟩
        exact hn1 (he ▸ List.mem_map_of_mem Prod.fst h)
    · simp only [mset, if_neg hk, List.mem_cons] at h
      rcases h with h | h
      · subst h
        exact Or.inr ⟨List.mem_cons_self _ _, hk⟩
      · rcases ih hn2 h with h' | h'
        · exact Or.inl h'
        · exact Or.inr ⟨List.mem_cons_of_mem _ h'.1, h'.2⟩

theorem mset_ne_nil {α : Type} (l : List (String × α)) (k : String) (v : α) :
    mset l k v ≠ [] := by
  cases l with
  | nil => simp [mset]
  | cons p rest =>
    obtain ⟨k₀, v₀⟩ := p
    by_cases hk : k₀ = k <;> simp [mset, hk]

theorem mem_mdel {α : Type} (l : List (String × α)) (k : String) (e : String × α) :
    e ∈ mdel l k ↔ e ∈ l ∧ e.1 ≠ k := by
  simp [mdel, List.mem_filter]

/-! ## Characterizations of the registry operations -/

theorem joinRoom_rooms_rejoin (s r u n : String) (st : ServerState) (c : RoomMap)
    (m : Member) (hc : mget st.rooms r = some c) (hm : mget c u = some m) :
    (joinRoom s r u n st).1.rooms = mset st.rooms r (mdel c u ++ [(u, ⟨s, n⟩)]) := by
  have h1 : rejoinInfo r u st.rooms = (true, mset st.rooms r (mdel c u)) := by
    simp [rejoinInfo, hc, hm]
  have h2 : ensureRoom r (mset st.rooms r (mdel c u)) = mset st.rooms r (mdel c u) := by
    simp [ensureRoom, mget_mset_self]
  have h3 : mset (mdel c u) u (⟨s, n⟩ : Member) = mdel c u ++ [(u, ⟨s, n⟩)] :=
    mset_of_mget_none _ _ _ (mget_mdel_self c u)
  simp only [joinRoom, h1, h2, mget_mset_self, Option.getD_some]
  rw [mset_mset_self, h3]

theorem joinRoom_rooms_new (s r u n : String) (st : ServerState) (c : RoomMap)
    (hc : mget st.rooms r = some c) (hm : mget c u = none) :
    (joinRoom s r u n st).1.rooms = mset st.rooms r (mset c u ⟨s, n⟩) := by
  have h1 : rejoinInfo r u st.rooms = (false, st.rooms) := by
    simp [rejoinInfo, hc, hm]
  have h2 : ensureRoom r st.rooms = st.rooms := by
    simp [ensureRoom, hc]
  simp only [joinRoom, h1, h2, hc, Option.getD_some]

theorem joinRoom_rooms_fresh (s r u n : String) (st : ServerState)
    (hc : mget st.rooms r = none) :
    (joinRoom s r u n st).1.rooms = mset st.rooms r [(u, ⟨s, n⟩)] := by
  have h1 : rejoinInfo r u st.rooms = (false, st.rooms) := by
    simp [rejoinInfo, hc]
  have h2 : ensureRoom r st.rooms = mset st.rooms r [] := by
    simp [ensureRoom, hc]
  simp only [joinRoom, h1, h2, mget_mset_self, Option.getD_some]
  rw [mset_mset_self]
  rfl

theorem joinRoom_usm (s r u n : String) (st : ServerState) :
    (joinRoom s r u n st).1.userSocketMap = mset st.userSocketMap u s := rfl

theorem leaveRoom_rooms (s r u : String) (st : ServerState) :
    (leaveRoom s r u st).1.rooms = leaveRoomsOp r u st.rooms := by
  simp only [leaveRoom, leaveRoomsOp]
  cases hg : mget st.rooms r with
  | none => rfl
  | some parts =>
    by_cases he : (mdel parts u).isEmpty <;> simp [he]

theorem leaveRoom_usm (s r u : String) (st : ServerState) :
    (leaveRoom s r u st).1.userSocketMap
      = st.userSocketMap.filter (fun p => p.2 ≠ s) := rfl

theorem discSweep_fst (s r : String) (kept parts : RoomMap) :
    (discSweep s r kept parts).1 = kept ++ sweepRoom s parts := by
  induction parts generalizing kept with
  | nil => simp [discSweep, sweepRoom]
  | cons p rest ih =>
    by_cases hp : p.2.socketId = s
    · simp [discSweep, hp, sweepRoom, List.filter_cons, ih]
    · simp only [discSweep, if_neg hp]
      rw [ih (kept ++ [p])]
      simp [sweepRoom, List.filter_cons, hp]

theorem disconnectSocket_rooms (s : String) (st : ServerState) :
    (disconnectSocket s st).1.rooms = disconnectRooms s st.rooms := by
  simp only [disconnectSocket, disconnectRooms]
  rw [List.filterMap_map]
  apply List.filterMap_congr
  intro rc _
  simp only [Function.comp_apply, discProcessRoom, discSweep_fst, List.nil_append,
    List.isEmpty_iff]
  by_cases hcond : ¬ rc.2 = [] ∧ sweepRoom s rc.2 = [] <;> simp [hcond]

theorem disconnectSocket_usm (s : String) (st : ServerState) :
    (disconnectSocket s st).1.userSocketMap
      = st.userSocketMap.filter (fun p => p.2 ≠ s) := rfl

theorem mem_disconnectRooms (s : String) (rooms : RoomsMap) (e : String × RoomMap)
    (h : e ∈ disconnectRooms s rooms) :
    ∃ rc ∈ rooms, e = (rc.1, sweepRoom s rc.2) ∧
      ¬ (¬ rc.2.isEmpty ∧ (sweepRoom s rc.2).isEmpty) := by
  simp only [disconnectRooms, List.mem_filterMap] at h
  obtain ⟨rc, hrc, hf⟩ := h
  by_cases hcond : ¬ rc.2.isEmpty ∧ (sweepRoom s rc.2).isEmpty
  · rw [if_pos hcond] at hf
    exact absurd hf (by simp)
  · rw [if_neg hcond] at hf
    exact ⟨rc, hrc, (Option.some.inj hf).symm, hcond⟩

theorem keys_disconnectRooms_sublist (s : String) (rooms : RoomsMap) :
    (keys (disconnectRooms s rooms)).Sublist (keys rooms) := by
  induction rooms with
  | nil => simp [disconnectRooms, keys]
  | cons rc rest ih =>
    simp only [disconnectRooms, List.filterMap_cons] at *
    by_cases hcond : ¬ rc.2.isEmpty ∧ (sweepRoom s rc.2).isEmpty
    · simp only [if_pos hcond]
      exact ih.trans (by simp [keys])
    · simp only [if_neg hcond]
      simpa [keys] using ih.cons₂ rc.1

/-! ## The registry invariant and its preservation -/

theorem regInvRooms_mset (rooms : RoomsMap) (r : String) (c : RoomMap)
    (h1 : (keys rooms).Nodup)
    (h2 : ∀ rc ∈ rooms, rc.2 ≠ [] ∧ (keys rc.2).Nodup)
    (hc : c ≠ []) (hcn : (keys c).Nodup) :
    (keys (mset rooms r c)).Nodup ∧
      ∀ rc ∈ mset rooms r c, rc.2 ≠ [] ∧ (keys rc.2).Nodup := by
  refine ⟨keys_nodup_mset _ _ _ h1, ?_⟩
  intro rc hrc
  rcases mem_mset _ _ _ _ hrc with he | he
  · subst he
    exact ⟨hc, hcn⟩
  · exact h2 rc he

theorem regInv_join (s r u n : String) (st : ServerState) (h : RegInv st) :
    RegInv (joinRoom s r u n st).1 := by
  obtain ⟨h1, h2⟩ := h
  cases hc : mget st.rooms r with
  | none =>
    rw [RegInv, joinRoom_rooms_fresh s r u n st hc]
    exact regInvRooms_mset _ _ _ h1 h2 (by simp) (by simp [keys])
  | some c =>
    have hmem := mem_of_mget _ _ _ hc
    have hcprops := h2 (r, c) hmem
    cases hm : mget c u with
    | none =>
      rw [RegInv, joinRoom_rooms_new s r u n st c hc hm]
      exact regInvRooms_mset _ _ _ h1 h2 (mset_ne_nil _ _ _)
        (keys_nodup_mset _ _ _ hcprops.2)
    | some mem0 =>
      rw [RegInv, joinRoom_rooms_rejoin s r u n st c mem0 hc hm]
      refine regInvRooms_mset _ _ _ h1 h2 (by simp) ?_
      have hdn : (keys (mdel c u)).Nodup :=
        (keys_mdel_sublist c u).nodup hcprops.2
      have hout : u ∉ keys (mdel c u) :=
        (mget_eq_none_iff _ _).1 (mget_mdel_self c u)
      have hout' : ∀ x : Member, (u, x) ∉ mdel c u := fun x hx =>
        hout (by simpa [keys] using List.mem_map_of_mem Prod.fst hx)
      simpa [keys, List.nodup_append] using ⟨hdn, hout'⟩

theorem regInv_leave (s r u : String) (st : ServerState) (h : RegInv st) :
    RegInv (leaveRoom s r u st).1 := by
  obtain ⟨h1, h2⟩ := h
  rw [RegInv, leaveRoom_rooms]
  simp only [leaveRoomsOp]
  cases hc : mget st.rooms r with
  | none => exact ⟨h1, h2⟩
  | some parts =>
    have hpprops := h2 (r, parts) (mem_of_mget _ _ _ hc)
    by_cases hemp : (mdel parts u).isEmpty
    · simp only [if_pos hemp]
      refine ⟨(keys_mdel_sublist st.rooms r).nodup h1, ?_⟩
      intro rc hrc
      exact h2 rc ((mem_mdel _ _ _).1 hrc).1
    · simp only [if_neg hemp]
      refine regInvRooms_mset _ _ _ h1 h2 ?_ ?_
      · simpa [List.isEmpty_iff] using hemp
      · exact (keys_mdel_sublist parts u).nodup hpprops.2

theorem regInv_disc (s : String) (st : ServerState) (h : RegInv st) :
    RegInv (disconnectSocket s st).1 := by
  obtain ⟨h1, h2⟩ := h
  rw [RegInv, disconnectSocket_rooms]
  refine ⟨(keys_disconnectRooms_sublist s st.rooms).nodup h1, ?_⟩
  intro rc hrc
  obtain ⟨rc0, hrc0, he, hcond⟩ := mem_disconnectRooms s st.rooms rc hrc
  have hprops := h2 rc0 hrc0
  have hne : ¬ (sweepRoom s rc0.2).isEmpty := by
    intro hsw
    exact hcond ⟨by simpa [List.isEmpty_iff] using hprops.1, hsw⟩
  subst he
  constructor
  · simpa [List.isEmpty_iff] using hne
  · exact ((List.filter_sublist rc0.2).map Prod.fst).nodup hprops.2

theorem regInv_applyOp (st : ServerState) (o : RegOp) (h : RegInv st) :
    RegInv (applyOp st o) := by
  cases o with
  | join s r u n => exact regInv_join s r u n st h
  | leave s r u => exact regInv_leave s r u st h
  | disc s => exact regInv_disc s st h

theorem regInv_foldl (ops : List RegOp) (st : ServerState) (h : RegInv st) :
    RegInv (ops.foldl applyOp st) := by
  induction ops generalizing st with
  | nil => exact h
  | cons o rest ih => exact ih _ (regInv_applyOp st o h)

theorem regInv_runOps (ops : List RegOp) : RegInv (runOps ops) :=
  regInv_foldl ops initState (by simp [RegInv, initState, keys])

/-! ## Disconnect as a fold of leaves -/

theorem eq_of_keys_nodup {α : Type} (l : List (String × α))
    (hn : (keys l).Nodup) (p q : String × α)
    (hp : p ∈ l) (hq : q ∈ l) (he : p.1 = q.1) : p = q := by
  induction l with
  | nil => cases hp
  | cons a rest ih =>
    have hn1 : a.1 ∉ keys rest := by
      simp only [keys, List.map_cons] at hn
      exact (List.nodup_cons.1 hn).1
    have hn2 : (keys rest).Nodup := by
      simp only [keys, List.map_cons] at hn
      exact (List.nodup_cons.1 hn).2
    rcases List.mem_cons.1 hp with hp0 | hp0 <;>
      rcases List.mem_cons.1 hq with hq0 | hq0
    · rw [hp0, hq0]
    · subst hp0
      exact absurd (he ▸ List.mem_map_of_mem Prod.fst hq0) hn1
    · subst hq0
      exact absurd (he ▸ List.mem_map_of_mem Prod.fst hp0) hn1
    · exact ih hn2 hp0 hq0

theorem leaveRoomsOp_skip (r₀ r u : String) (x : RoomMap) (rest : RoomsMap)
    (h : r ≠ r₀) :
    leaveRoomsOp r u ((r₀, x) :: rest) = (r₀, x) :: leaveRoomsOp r u rest := by
  have hg : mget ((r₀, x) :: rest) r = mget rest r := by
    simp [mget, Ne.symm h]
  simp only [leaveRoomsOp, hg]
  cases hr : mget rest r with
  | none => rfl
  | some parts =>
    by_cases he : (mdel parts u).isEmpty
    · simp only [if_pos he]
      simp [mdel, List.filter_cons, Ne.symm h]
    · simp only [if_neg he]
      simp [mset, Ne.symm h]

theorem foldOp_skip (r₀ : String) (x : RoomMap) (rest : RoomsMap)
    (pairs : List (String × String)) (h : ∀ pr ∈ pairs, pr.1 ≠ r₀) :
    pairs.foldl (fun R pr => leaveRoomsOp pr.1 pr.2 R) ((r₀, x) :: rest)
      = (r₀, x) :: pairs.foldl (fun R pr => leaveRoomsOp pr.1 pr.2 R) rest := by
  induction pairs generalizing rest with
  | nil => rfl
  | cons pr prs ih =>
    simp only [List.foldl_cons]
    rw [leaveRoomsOp_skip _ _ _ _ _ (h pr (List.mem_cons_self _ _))]
    exact ih _ (fun q hq => h q (List.mem_cons_of_mem _ hq))

theorem foldOp_keep (r₀ u : String) (m : Member) (rest : RoomsMap)
    (us : List String) (c₀ : RoomMap) (h : ∀ u' ∈ us, u' ≠ u) :
    (us.map (fun u' => (r₀, u'))).foldl
        (fun R pr => leaveRoomsOp pr.1 pr.2 R) ((r₀, (u, m) :: c₀) :: rest)
      = (r₀, (u, m) :: us.foldl (fun cc u' => mdel cc u') c₀) :: rest := by
  induction us generalizing c₀ with
  | nil => rfl
  | cons u' us' ih =>
    simp only [List.map_cons, List.foldl_cons]
    have hu : u ≠ u' := Ne.symm (h u' (List.mem_cons_self _ _))
    have hstep : leaveRoomsOp r₀ u' ((r₀, (u, m) :: c₀) :: rest)
        = (r₀, (u, m) :: mdel c₀ u') :: rest := by
      have hg : mget ((r₀, (u, m) :: c₀) :: rest) r₀ = some ((u, m) :: c₀) := by
        simp [mget]
      have hd : mdel ((u, m) :: c₀) u' = (u, m) :: mdel c₀ u' := by
        simp [mdel, List.filter_cons, hu]
      simp only [leaveRoomsOp, hg, hd, List.isEmpty_cons, if_neg Bool.false_ne_true,
        Bool.false_eq_true, if_false]
      simp [mset]
    rw [hstep]
    exact ih _ (fun q hq => h q (List.mem_cons_of_mem _ hq))

theorem foldMdel_eq_filter (c : RoomMap) (us : List String) :
    us.foldl (fun cc u' => mdel cc u') c = c.filter (fun p => p.1 ∉ us) := by
  induction us generalizing c with
  | nil => simp
  | cons u us ih =>
    rw [List.foldl_cons, ih]
    simp only [mdel, List.filter_filter]
    apply List.filter_congr
    intro p _
    by_cases h1 : p.1 = u <;> by_cases h2 : p.1 ∈ us <;> simp [h1, h2]

theorem mem_pinnedUsers_keys (s u' : String) (c : RoomMap)
    (h : u' ∈ pinnedUsers s c) : u' ∈ keys c := by
  simp only [pinnedUsers, List.mem_map] at h
  obtain ⟨p, hp, he⟩ := h
  exact he ▸ List.mem_map_of_mem Prod.fst (List.mem_of_mem_filter hp)

theorem pinned_filter_eq_sweep (s : String) (ps : RoomMap)
    (hn : (keys ps).Nodup) :
    ps.filter (fun p => p.1 ∉ pinnedUsers s ps) = sweepRoom s ps := by
  simp only [sweepRoom]
  apply List.filter_congr
  intro p hp
  by_cases hsock : p.2.socketId = s
  · have hmem : p.1 ∈ pinnedUsers s ps := by
      simp only [pinnedUsers]
      exact List.mem_map_of_mem Prod.fst (List.mem_filter.2 ⟨hp, by simp [hsock]⟩)
    simp [hmem, hsock]
  · have hnot : p.1 ∉ pinnedUsers s ps := by
      intro hmem
      simp only [pinnedUsers, List.mem_map] at hmem
      obtain ⟨q, hq, he⟩ := hmem
      have hqmem := List.mem_of_mem_filter hq
      have hqsock : q.2.socketId = s := by
        have := List.of_mem_filter hq
        simpa using this
      have := eq_of_keys_nodup ps hn q p hqmem hp he
      exact hsock (this ▸ hqsock)
    simp [hnot, hsock]

theorem headFold (s r₀ : String) (c : RoomMap) (rest : RoomsMap)
    (hnR : r₀ ∉ keys rest) (hnc : (keys c).Nodup) :
    ((pinnedUsers s c).map (fun u => (r₀, u))).foldl
        (fun R pr => leaveRoomsOp pr.1 pr.2 R) ((r₀, c) :: rest)
      = if c ≠ [] ∧ sweepRoom s c = [] then rest
        else (r₀, sweepRoom s c) :: rest := by
  induction c with
  | nil => simp [pinnedUsers, sweepRoom]
  | cons p ps ih =>
    obtain ⟨u, m⟩ := p
    have hnc1 : u ∉ keys ps := by
      simp only [keys, List.map_cons] at hnc
      exact (List.nodup_cons.1 hnc).1
    have hnc2 : (keys ps).Nodup := by
      simp only [keys, List.map_cons] at hnc
      exact (List.nodup_cons.1 hnc).2
    by_cases hsock : m.socketId = s
    · have hpu : pinnedUsers s ((u, m) :: ps) = u :: pinnedUsers s ps := by
        simp [pinnedUsers, List.filter_cons, hsock]
      have hsw : sweepRoom s ((u, m) :: ps) = sweepRoom s ps := by
        simp [sweepRoom, List.filter_cons, hsock]
      have hdel : mdel ((u, m) :: ps) u = ps := by
        have : mdel ps u = ps :=
          mdel_of_mget_none ps u ((mget_eq_none_iff ps u).2 hnc1)
        simp [mdel, List.filter_cons] at this ⊢
        exact this
      rw [hpu, hsw, List.map_cons, List.foldl_cons]
      have hg : mget ((r₀, (u, m) :: ps) :: rest) r₀ = some ((u, m) :: ps) := by
        simp [mget]
      by_cases hps : ps = []
      · subst hps
        have hstep : leaveRoomsOp r₀ u ((r₀, [(u, m)]) :: rest) = rest := by
          simp only [leaveRoomsOp, hg, hdel, List.isEmpty_nil, if_true]
          have hrest : mdel rest r₀ = rest :=
            mdel_of_mget_none rest r₀ ((mget_eq_none_iff rest r₀).2 hnR)
          simp [mdel, List.filter_cons] at hrest ⊢
          exact hrest
        rw [hstep]
        simp [pinnedUsers, sweepRoom]
      · have hstep : leaveRoomsOp r₀ u ((r₀, (u, m) :: ps) :: rest)
            = (r₀, ps) :: rest := by
          have hne : ¬ ps.isEmpty := by simpa [List.isEmpty_iff] using hps
          simp only [leaveRoomsOp, hg, hdel, if_neg hne]
          simp [mset]
        rw [hstep, ih hnc2]
        simp [hps]
    · have hpu : pinnedUsers s ((u, m) :: ps) = pinnedUsers s ps := by
        simp [pinnedUsers, List.filter_cons, hsock]
      have hsw : sweepRoom s ((u, m) :: ps) = (u, m) :: sweepRoom s ps := by
        simp [sweepRoom, List.filter_cons, hsock]
      have hus : ∀ u' ∈ pinnedUsers s ps, u' ≠ u := by
        intro u' hu' he
        exact hnc1 (he ▸ mem_pinnedUsers_keys s u' ps hu')
      rw [hpu, foldOp_keep r₀ u m rest _ ps hus, foldMdel_eq_filter,
        pinned_filter_eq_sweep s ps hnc2, hsw]
      simp

theorem pinnedPairs_room_mem (s : String) (rooms : RoomsMap)
    (pr : String × String) (h : pr ∈ pinnedPairs s rooms) : pr.1 ∈ keys rooms := by
  simp only [pinnedPairs, List.mem_flatten, List.mem_map] at h
  obtain ⟨l, ⟨rc, hrc, hl⟩, hpr⟩ := h
  rw [← hl] at hpr
  simp only [List.mem_map] at hpr
  obtain ⟨u, _, he⟩ := hpr
  rw [← he]
  exact List.mem_map_of_mem Prod.fst hrc

theorem roomsFold (s : String) (rooms : RoomsMap) (h1 : (keys rooms).Nodup)
    (h2 : ∀ rc ∈ rooms, (keys rc.2).Nodup) :
    (pinnedPairs s rooms).foldl (fun R pr => leaveRoomsOp pr.1 pr.2 R) rooms
      = disconnectRooms s rooms := by
  induction rooms with
  | nil => rfl
  | cons rc rest ih =>
    obtain ⟨r₀, c⟩ := rc
    have h11 : r₀ ∉ keys rest := by
      simp only [keys, List.map_cons] at h1
      exact (List.nodup_cons.1 h1).1
    have h12 : (keys rest).Nodup := by
      simp only [keys, List.map_cons] at h1
      exact (List.nodup_cons.1 h1).2
    have hpp : pinnedPairs s ((r₀, c) :: rest)
        = (pinnedUsers s c).map (fun u => (r₀, u)) ++ pinnedPairs s rest := by
      simp [pinnedPairs]
    rw [hpp, List.foldl_append,
      headFold s r₀ c rest h11 (h2 (r₀, c) (List.mem_cons_self _ _))]
    have ihr := ih h12 (fun q hq => h2 q (List.mem_cons_of_mem _ hq))
    by_cases hcond : c ≠ [] ∧ sweepRoom s c = []
    · rw [if_pos hcond, ihr]
      simp only [disconnectRooms, List.filterMap_cons]
      rw [if_pos (by simpa [List.isEmpty_iff] using hcond)]
    · rw [if_neg hcond]
      rw [foldOp_skip r₀ (sweepRoom s c) rest (pinnedPairs s rest)
        (fun pr hpr he => h11 (he ▸ pinnedPairs_room_mem s rest pr hpr))]
      rw [ihr]
      simp only [disconnectRooms, List.filterMap_cons]
      rw [if_neg (by simpa [List.isEmpty_iff] using hcond)]

theorem foldLeave_rooms (s : String) (pairs : List (String × String))
    (st : ServerState) :
    (pairs.foldl (fun acc pr => (leaveRoom s pr.1 pr.2 acc).1) st).rooms
      = pairs.foldl (fun R pr => leaveRoomsOp pr.1 pr.2 R) st.rooms := by
  induction pairs generalizing st with
  | nil => rfl
  | cons pr prs ih =>
    simp only [List.foldl_cons]
    rw [ih, leaveRoom_rooms]

theorem foldLeave_usm (s : String) (pairs : List (String × String))
    (st : ServerState) :
    (pairs.foldl (fun acc pr => (leaveRoom s pr.1 pr.2 acc).1) st).userSocketMap
      = if pairs = [] then st.userSocketMap
        else st.userSocketMap.filter (fun p => p.2 ≠ s) := by
  induction pairs generalizing st with
  | nil => rfl
  | cons pr prs ih =>
    simp only [List.foldl_cons, if_neg (List.cons_ne_nil pr prs)]
    rw [ih]
    by_cases hp : prs = []
    · simp [hp, leaveRoom_usm]
    · rw [if_neg hp, leaveRoom_usm]
      simp only [List.filter_filter]
      apply List.filter_congr
      intro p _
      by_cases h : p.2 = s <;> simp [h]

/-! ## Negotiation machine lemmas -/

theorem sigState_cases (st : SigState) (h : st ≠ SigState.haveRemoteOffer) :
    st = SigState.stable ∨ st = SigState.haveLocalOffer := by
  cases st with
  | stable => exact Or.inl rfl
  | haveLocalOffer => exact Or.inr rfl
  | haveRemoteOffer => exact absurd rfl h

theorem stepPeer_inv (polite : Bool) (st : PeerState) (e : CEvent)
    (hmo : st.makingOffer = false) (hsig : st.sigState ≠ SigState.haveRemoteOffer) :
    (stepPeer polite st e).1.makingOffer = false ∧
    (stepPeer polite st e).1.sigState ≠ SigState.haveRemoteOffer ∧
    ∀ sb, CAction.setLocalOffer sb ∈ (stepPeer polite st e).2 →
      sb = SigState.stable ∨ sb = SigState.haveLocalOffer := by
  cases e with
  | recvIce c =>
    simp only [stepPeer]
    split_ifs <;> simp [hmo, hsig]
  | recvOffer =>
    simp only [stepPeer]
    split_ifs with h1 h2 <;>
      simp_all [newConn, List.mem_map]
    exact (sigState_cases st.sigState hsig).resolve_left h1.1.2
  | recvAnswer =>
    simp only [stepPeer]
    split_ifs <;> simp_all [List.mem_map]
  | negotiationNeeded =>
    simp only [stepPeer]
    split_ifs <;> simp_all
  | initiate =>
    simp only [stepPeer]
    split_ifs <;> simp_all [newConn]

theorem runPeerAux_offers (polite : Bool) (es : List CEvent) (st : PeerState)
    (hmo : st.makingOffer = false) (hsig : st.sigState ≠ SigState.haveRemoteOffer) :
    ∀ sb, CAction.setLocalOffer sb ∈ (runPeerAux polite st es).2 →
      sb = SigState.stable ∨ sb = SigState.haveLocalOffer := by
  induction es generalizing st with
  | nil => simp [runPeerAux]
  | cons e es ih =>
    intro sb hsb
    simp only [runPeerAux, List.mem_append] at hsb
    obtain ⟨h1, h2, h3⟩ := stepPeer_inv polite st e hmo hsig
    rcases hsb with hsb | hsb
    · exact h3 sb hsb
    · exact ih _ h1 h2 sb hsb

theorem iceAdds_map (l : List Nat) :
    iceAdds (l.map CAction.addIceCandidate) = l := by
  induction l with
  | nil => rfl
  | cons c cs ih => simp [iceAdds, List.filterMap_cons] at ih ⊢; exact ih

theorem iceAdds_append (l1 l2 : List CAction) :
    iceAdds (l1 ++ l2) = iceAdds l1 ++ iceAdds l2 := by
  simp [iceAdds, List.filterMap_append]

theorem labelIsScreen_isScreen (t : Track) (h : labelIsScreen t.label = true) :
    isScreenTrack t = true := by
  simp [isScreenTrack, h]

/-! ## Claims

Each claim of the specification is settled by one theorem below; theorems
with hypotheses come with a closed witness, refuted claims with a closed
counterexample evaluated on concrete inputs. -/

/-- C1 (amended).  For every sequence of `join`/`leave`/`disconnect`
operations applied to the initially empty registry — and hence after each
step of any such sequence, every prefix being such a sequence — no room in
the registry is empty and within every room each `UserId` keys at most one
member entry.  The third clause of the original claim (consistency of the
global `UserId → SocketId` index with the member entries) does not hold on
the code; see `registry_index_invariant_fails`. -/
theorem registry_rooms_invariant (ops : List RegOp) :
    noEmptyRooms (runOps ops) ∧ perRoomUnique (runOps ops) := by
  obtain ⟨h1, h2⟩ := regInv_runOps ops
  exact ⟨fun rc h => (h2 rc h).1, fun rc h => (h2 rc h).2⟩

/-- C1 counterexample.  After `staleLeaveOps` (user `u` joins room `R` over
socket `s1`, rejoins over `s2`, then the orphaned socket `s1` issues the
leave) the registry holds no rooms yet the index still maps `u` to `s2`, so
the claimed invariant conjunction is false after that sequence. -/
theorem registry_index_invariant_fails :
    ¬ (noEmptyRooms (runOps staleLeaveOps) ∧ perRoomUnique (runOps staleLeaveOps) ∧
       indexConsistent (runOps staleLeaveOps)) := by decide

/-- C2 (amended).  For every registry state with unique room keys and unique
user keys per room, `disconnect(s)` and the fold of `leave` over all
`(room, user)` pairs pinned to `s` produce the same rooms mapping; the two
global indices agree as well whenever at least one member is pinned to `s`.
When no member is pinned to `s` the fold is empty while `disconnect` still
purges index entries mapping to `s`; see `disconnect_index_differs`. -/
theorem disconnect_matches_leave_fold (s : String) (st : ServerState)
    (hR : (keys st.rooms).Nodup)
    (hC : ∀ rc ∈ st.rooms, (keys rc.2).Nodup) :
    (disconnectSocket s st).1.rooms = (leaveFold s st).rooms ∧
    (pinnedPairs s st.rooms ≠ [] →
      (disconnectSocket s st).1.userSocketMap = (leaveFold s st).userSocketMap) := by
  constructor
  · rw [disconnectSocket_rooms]
    unfold leaveFold
    rw [foldLeave_rooms, roomsFold s st.rooms hR hC]
  · intro hne
    rw [disconnectSocket_usm]
    unfold leaveFold
    rw [foldLeave_usm, if_neg hne]

/-- C2 witness at a concrete two-member room with one member pinned to
socket `s1`. -/
theorem disconnect_matches_leave_fold_witness :
    (disconnectSocket "s1" twoMemberState).1.rooms
      = (leaveFold "s1" twoMemberState).rooms ∧
    (disconnectSocket "s1" twoMemberState).1.userSocketMap
      = (leaveFold "s1" twoMemberState).userSocketMap := by
  have h := disconnect_matches_leave_fold "s1" twoMemberState (by decide) (by decide)
  exact ⟨h.1, h.2 (by decide)⟩

/-- C2 counterexample.  In the (reachable) registry left by `staleLeaveOps`
no member is pinned to `s2` but the index still maps `u` to `s2`:
`disconnect(s2)` deletes that entry while the (empty) leave fold keeps it,
so the two resulting registries differ. -/
theorem disconnect_index_differs :
    (disconnectSocket "s2" (runOps staleLeaveOps)).1.userSocketMap
      ≠ (leaveFold "s2" (runOps staleLeaveOps)).userSocketMap := by decide

/-- C3 (amended).  A `join` for a `(room, user)` pair already present (over
socket `s2`, the stored socket being `s1 ≠ s2`) broadcasts exactly one
`userRejoined` event (and no `userJoined`) to the other members, and the
member entry is removed and re-appended at the END of the room's ordered
mapping, now carrying `s2`, the rest of the room unchanged and in order.
The original claim's in-place replacement fails — a JS `Map` delete + set
moves the entry to the end; see `rejoin_not_in_place`. -/
theorem rejoin_replaces_at_end (s2 r u n : String) (st : ServerState)
    (c : RoomMap) (m : Member) (hc : mget st.rooms r = some c)
    (hm : mget c u = some m) (_hs : m.socketId ≠ s2) :
    (joinRoom s2 r u n st).1.rooms
      = mset st.rooms r (mdel c u ++ [(u, ⟨s2, n⟩)]) ∧
    ((joinRoom s2 r u n st).2.filter (fun ev => ev.name == "userRejoined")).length
      = 1 ∧
    ((joinRoom s2 r u n st).2.filter (fun ev => ev.name == "userJoined")).length
      = 0 ∧
    (joinRoom s2 r u n st).2.filter (fun ev => ev.name == "userRejoined")
      = [⟨Target.roomExcept r s2, "userRejoined", Payload.userInfo u s2 n⟩] := by
  have h1 : rejoinInfo r u st.rooms = (true, mset st.rooms r (mdel c u)) := by
    simp [rejoinInfo, hc, hm]
  refine ⟨joinRoom_rooms_rejoin s2 r u n st c m hc hm, ?_, ?_, ?_⟩ <;>
    simp [joinRoom, h1]

/-- C3 witness at the concrete two-member room. -/
theorem rejoin_replaces_at_end_witness :
    (joinRoom "s9" "R" "u1" "A" twoMemberState).1.rooms
      = mset twoMemberState.rooms "R"
          (mdel [("u1", ⟨"s1", "A"⟩), ("u2", ⟨"s2", "B"⟩)] "u1"
            ++ [("u1", ⟨"s9", "A"⟩)]) :=
  (rejoin_replaces_at_end "s9" "R" "u1" "A" twoMemberState
    [("u1", ⟨"s1", "A"⟩), ("u2", ⟨"s2", "B"⟩)] ⟨"s1", "A"⟩
    (by decide) (by decide) (by decide)).1

/-- C3 counterexample.  Rejoining the first of two members moves their entry
to the end of the room's ordered mapping instead of replacing it in place. -/
theorem rejoin_not_in_place :
    mget (joinRoom "s9" "R" "u1" "A" twoMemberState).1.rooms "R"
      = some [("u2", ⟨"s2", "B"⟩), ("u1", ⟨"s9", "A"⟩)] ∧
    mget (joinRoom "s9" "R" "u1" "A" twoMemberState).1.rooms "R"
      ≠ some [("u1", ⟨"s9", "A"⟩), ("u2", ⟨"s2", "B"⟩)] := by decide

/-- C4 (amended).  A `leave` for a `(room, user)` pair that does not exist
leaves the rooms mapping unchanged, but it is not a silent no-op: every
global-index entry mapping to the caller's socket is still removed, a
`userLeft {user}` is still broadcast to the room's delivery group minus the
caller, and when the room exists (nonempty, lacking the user) a
`participant-count` is still broadcast; the caller also leaves the delivery
group.  See `leave_missing_pair_not_silent` for the refutation of the
original claim. -/
theorem leave_missing_pair (s r u : String) (st : ServerState) :
    (mget st.rooms r = none →
      (leaveRoom s r u st).1.rooms = st.rooms ∧
      (leaveRoom s r u st).1.userSocketMap
        = st.userSocketMap.filter (fun p => p.2 ≠ s) ∧
      (leaveRoom s r u st).2
        = [⟨Target.roomExcept r s, "userLeft", Payload.leftInfo u⟩]) ∧
    (∀ c, mget st.rooms r = some c → mget c u = none → c ≠ [] →
      (leaveRoom s r u st).1.rooms = st.rooms ∧
      (leaveRoom s r u st).1.userSocketMap
        = st.userSocketMap.filter (fun p => p.2 ≠ s) ∧
      (leaveRoom s r u st).2
        = [⟨Target.room r, "participant-count", Payload.count c.length⟩,
           ⟨Target.roomExcept r s, "userLeft", Payload.leftInfo u⟩]) := by
  constructor
  · intro h
    refine ⟨?_, rfl, ?_⟩ <;> simp [leaveRoom, h]
  · intro c hc hu hne
    have hd : mdel c u = c := mdel_of_mget_none c u hu
    have hemp : ¬ (mdel c u).isEmpty = true := by
      simp [hd, List.isEmpty_iff, hne]
    have hms : mset st.rooms r (mdel c u) = st.rooms := by
      rw [hd]
      exact mset_self_of_mget _ _ _ hc
    refine ⟨?_, rfl, ?_⟩
    · rw [leaveRoom_rooms]
      simp only [leaveRoomsOp, hc, if_neg hemp]
      exact hms
    · simp [leaveRoom, hc, hd, hne]

/-- C4 witness: leave for an unknown user of an existing room. -/
theorem leave_missing_pair_witness :
    (leaveRoom "s1" "R" "u2" oneMemberState).1.rooms = oneMemberState.rooms ∧
    (leaveRoom "s1" "R" "u2" oneMemberState).1.userSocketMap
      = oneMemberState.userSocketMap.filter (fun p => p.2 ≠ "s1") ∧
    (leaveRoom "s1" "R" "u2" oneMemberState).2
      = [⟨Target.room "R", "participant-count", Payload.count 1⟩,
         ⟨Target.roomExcept "R" "s1", "userLeft", Payload.leftInfo "u2"⟩] := by
  have h := (leave_missing_pair "s1" "R" "u2" oneMemberState).2
    [("u1", ⟨"s1", "A"⟩)] (by decide) (by decide) (by decide)
  exact ⟨h.1, h.2.1, h.2.2⟩

/-- C4 counterexample.  A leave for absent user `u2` of room `R` by the
socket of member `u1` deletes `u1`'s index entry and broadcasts events, so
it is not the silent no-op the claim states. -/
theorem leave_missing_pair_not_silent :
    ¬ ((leaveRoom "s1" "R" "u2" oneMemberState).1.userSocketMap
         = oneMemberState.userSocketMap ∧
       (leaveRoom "s1" "R" "u2" oneMemberState).2 = []) := by decide

/-- C5 (confirmed).  `route-signal` never mutates the registry; when the
global index holds an entry for `to` the payload `{from, signal}` is
forwarded to that socket exactly once and unmodified — with no condition on
`from` being in any room (the room scan is used only for logging) — and when
the index holds no entry for `to` nothing is emitted. -/
theorem route_signal_exact (toUser fromUser sig : String) (st : ServerState) :
    (signalHandler toUser fromUser sig st).1 = st ∧
    (∀ t, mget st.userSocketMap toUser = some t →
      (signalHandler toUser fromUser sig st).2
        = [⟨Target.socket t, "signal", Payload.sig fromUser sig⟩]) ∧
    (mget st.userSocketMap toUser = none →
      (signalHandler toUser fromUser sig st).2 = []) := by
  refine ⟨?_, ?_, ?_⟩
  · cases h : mget st.userSocketMap toUser <;> simp [signalHandler, h]
  · intro t ht
    simp [signalHandler, ht]
  · intro h
    simp [signalHandler, h]

/-- C5 witness: the sender `ux` is in no room, yet the signal is forwarded
to `u1`'s socket exactly once. -/
theorem route_signal_exact_witness :
    (signalHandler "u1" "ux" "offer-sdp" oneMemberState).1 = oneMemberState ∧
    (signalHandler "u1" "ux" "offer-sdp" oneMemberState).2
      = [⟨Target.socket "s1", "signal", Payload.sig "ux" "offer-sdp"⟩] := by
  have h := route_signal_exact "u1" "ux" "offer-sdp" oneMemberState
  exact ⟨h.1, h.2.1 "s1" (by decide)⟩

/-- C6 (amended).  In every reachable execution of the per-peer negotiation
machine, every `setLocalDescription` with an offer happens while the
signaling state is `stable` or `have-local-offer` — never `have-remote-offer`.
The original claim (offers only from `stable`) is false: the impolite
collision branch of the signal handler re-offers while in
`have-local-offer`; see `offer_from_nonstable_state`. -/
theorem offer_only_from_stable_or_local_offer (polite : Bool)
    (es : List CEvent) (sb : SigState)
    (h : CAction.setLocalOffer sb ∈ (runPeer polite es).2) :
    sb = SigState.stable ∨ sb = SigState.haveLocalOffer :=
  runPeerAux_offers polite es initPeer rfl (by decide) sb h

/-- C6 witness: the polite side's initial offer is issued from `stable`. -/
theorem offer_only_from_stable_or_local_offer_witness :
    SigState.stable = SigState.stable ∨ SigState.stable = SigState.haveLocalOffer :=
  offer_only_from_stable_or_local_offer true [CEvent.initiate] SigState.stable
    (by decide)

/-- C6 counterexample.  Driving the impolite peer through `glareEvents`
records a `setLocalDescription(offer)` issued while the signaling state is
`have-local-offer`, not `stable`. -/
theorem offer_from_nonstable_state :
    CAction.setLocalOffer SigState.haveLocalOffer ∈ (runPeer false glareEvents).2 ∧
    SigState.haveLocalOffer ≠ SigState.stable := by decide

/-- C7 (confirmed).  An inbound ICE candidate with no connection or no remote
description is appended to the pending queue and not added; with a remote
description set it is added immediately and the queue is untouched.  Whenever
a remote description is applied (an accepted offer, or an answer accepted in
`have-local-offer`), exactly the queued candidates are added, in arrival
order, and the queue is emptied. -/
theorem pending_ice_protocol (polite : Bool) (st : PeerState) (c : Nat) :
    ((¬ st.connected ∨ ¬ st.remoteDescSet) →
      stepPeer polite st (CEvent.recvIce c)
        = ({ st with pendingIce := st.pendingIce ++ [c] }, [])) ∧
    (st.connected → st.remoteDescSet →
      stepPeer polite st (CEvent.recvIce c) = (st, [CAction.addIceCandidate c])) ∧
    (¬ ((st.connected ∧ (st.makingOffer ∨ st.sigState ≠ SigState.stable)) ∧ ¬ polite) →
      iceAdds (stepPeer polite st CEvent.recvOffer).2 = st.pendingIce ∧
      (stepPeer polite st CEvent.recvOffer).1.pendingIce = [] ∧
      (stepPeer polite st CEvent.recvOffer).1.remoteDescSet = true) ∧
    (st.connected → st.sigState = SigState.haveLocalOffer →
      iceAdds (stepPeer polite st CEvent.recvAnswer).2 = st.pendingIce ∧
      (stepPeer polite st CEvent.recvAnswer).1.pendingIce = [] ∧
      (stepPeer polite st CEvent.recvAnswer).1.remoteDescSet = true) := by
  refine ⟨?_, ?_, ?_, ?_⟩
  · intro h
    simp only [stepPeer]
    rw [if_pos h]
  · intro h1 h2
    simp only [stepPeer]
    rw [if_neg (by simp [h1, h2])]
  · intro h
    simp only [stepPeer]
    rw [if_neg h]
    by_cases hconn : ¬ st.connected
    · rw [if_pos hconn]
      refine ⟨?_, rfl, rfl⟩
      rw [iceAdds_append, iceAdds_append, iceAdds_append, iceAdds_map]
      simp [iceAdds, newConn]
    · rw [if_neg hconn]
      by_cases hroll : st.sigState ≠ SigState.stable ∧ polite
      · rw [if_pos hroll]
        refine ⟨?_, rfl, rfl⟩
        rw [iceAdds_append, iceAdds_append, iceAdds_append, iceAdds_map]
        simp [iceAdds]
      · rw [if_neg hroll]
        refine ⟨?_, rfl, rfl⟩
        rw [iceAdds_append, iceAdds_append, iceAdds_append, iceAdds_map]
        simp [iceAdds]
  · intro h1 h2
    simp only [stepPeer]
    rw [if_neg (by simp [h1])]
    rw [if_pos h2]
    refine ⟨?_, rfl, rfl⟩
    show iceAdds (CAction.setRemoteAnswer :: st.pendingIce.map CAction.addIceCandidate)
      = st.pendingIce
    rw [show CAction.setRemoteAnswer :: st.pendingIce.map CAction.addIceCandidate
      = [CAction.setRemoteAnswer] ++ st.pendingIce.map CAction.addIceCandidate from rfl]
    rw [iceAdds_append, iceAdds_map]
    rfl

/-- C7 witness: a candidate queued without a connection; two queued
candidates drained, in order, by an accepted offer. -/
theorem pending_ice_protocol_witness :
    stepPeer true ⟨false, SigState.stable, false, false, [1, 2]⟩ (CEvent.recvIce 3)
      = (⟨false, SigState.stable, false, false, [1, 2, 3]⟩, []) ∧
    iceAdds (stepPeer true ⟨true, SigState.stable, false, false, [1, 2]⟩
      CEvent.recvOffer).2 = [1, 2] := by
  have h1 := (pending_ice_protocol true
    ⟨false, SigState.stable, false, false, [1, 2]⟩ 3).1
  have h2 := (pending_ice_protocol true
    ⟨true, SigState.stable, false, false, [1, 2]⟩ 3).2.2.1
  exact ⟨h1 (Or.inl (by decide)), (h2 (by decide)).1⟩

/-- C8 (confirmed).  `relay-chat` leaves the state untouched and emits
exactly one `receiveMessage` carrying the identical field values, targeted
at the room's delivery group minus the sender: the recipients are exactly
the group members other than the sender's socket, which never receives it. -/
theorem chat_relay_exact (s r id sid snk content ts : String) (st : ServerState) :
    (chatMessage s r id sid snk content ts st).1 = st ∧
    (chatMessage s r id sid snk content ts st).2
      = [⟨Target.roomExcept r s, "receiveMessage",
          Payload.chat id sid snk content ts⟩] ∧
    (∀ x, x ∈ recipients st (Target.roomExcept r s) ↔
      x ∈ groupOf st r ∧ x ≠ s) ∧
    s ∉ recipients st (Target.roomExcept r s) := by
  refine ⟨rfl, rfl, ?_, ?_⟩
  · intro x
    simp [recipients, List.mem_filter]
  · simp [recipients, List.mem_filter]

/-- C8 witness at a concrete room. -/
theorem chat_relay_exact_witness :
    (chatMessage "s1" "R" "m1" "u1" "A" "hi" "t0" oneMemberState).1
      = oneMemberState ∧
    "s1" ∉ recipients oneMemberState (Target.roomExcept "R" "s1") := by
  have h := chat_relay_exact "s1" "R" "m1" "u1" "A" "hi" "t0" oneMemberState
  exact ⟨h.1, h.2.2.2⟩

/-- C9 (amended).  An inbound screen-share-classified video track removes
exactly the existing video tracks whose LABEL carries a screen word and is
appended; audio tracks and camera tracks are untouched.  The original claim
("any existing screen-share track is removed") fails: the removal filter
tests only the label, so a track classified as screen-share by resolution or
`displaySurface` alone survives; see `screen_track_survives`. -/
theorem screen_track_routing (t : Track) (stream : List Track)
    (hv : t.kind = TrackKind.video) (hs : isScreenTrack t = true) :
    ontrackUpdate t stream
      = stream.filter
          (fun tr => !(tr.kind == TrackKind.video && labelIsScreen tr.label))
        ++ [t] ∧
    (∀ tr ∈ stream, tr.kind = TrackKind.audio → tr ∈ ontrackUpdate t stream) ∧
    (∀ tr ∈ stream, tr.kind = TrackKind.video → isScreenTrack tr = false →
      tr ∈ ontrackUpdate t stream) := by
  have he : ontrackUpdate t stream
      = stream.filter
          (fun tr => !(tr.kind == TrackKind.video && labelIsScreen tr.label))
        ++ [t] := by
    simp [ontrackUpdate, hs, hv]
  refine ⟨he, ?_, ?_⟩
  · intro tr htr hk
    rw [he]
    refine List.mem_append_left _ (List.mem_filter.2 ⟨htr, ?_⟩)
    simp [hk]
  · intro tr htr hk hns
    have hl : labelIsScreen tr.label = false := by
      by_contra hb
      rw [labelIsScreen_isScreen tr (by simpa using hb)] at hns
      cases hns
    rw [he]
    refine List.mem_append_left _ (List.mem_filter.2 ⟨htr, ?_⟩)
    simp [hl]

/-- C9 witness: a labelled screen track lands at the end of a stream holding
an audio and a camera track, both untouched. -/
theorem screen_track_routing_witness :
    ontrackUpdate screenLabelTrack [audioTrack, cameraTrack]
      = [audioTrack, cameraTrack, screenLabelTrack] := by
  rw [(screen_track_routing screenLabelTrack [audioTrack, cameraTrack]
    (by decide) (by decide)).1]
  decide

/-- C9 counterexample.  `bigTrack` is screen-share-classified (by
resolution) yet survives the arrival of the labelled screen track, so the
claimed replacement of any existing screen-share track is false. -/
theorem screen_track_survives :
    isScreenTrack bigTrack = true ∧ bigTrack.kind = TrackKind.video ∧
    isScreenTrack screenLabelTrack = true ∧
    screenLabelTrack.kind = TrackKind.video ∧
    ontrackUpdate screenLabelTrack [bigTrack] = [bigTrack, screenLabelTrack] := by
  decide

/-- C10 (confirmed).  `removePeerConnection(u)` with no connection for `u`
changes nothing — including any candidates queued under `u` — and the
operation is idempotent on every state. -/
theorem removePeer_absent_noop_idempotent (u : String) (st : ClientMgrState) :
    (mget st.peerConnections u = none → removePeerConnection u st = st) ∧
    removePeerConnection u (removePeerConnection u st)
      = removePeerConnection u st := by
  constructor
  · intro h
    simp [removePeerConnection, h]
  · cases h : mget st.peerConnections u with
    | none => simp [removePeerConnection, h]
    | some v =>
      have h2 : mget (mdel st.peerConnections u) u = none := mget_mdel_self _ _
      simp [removePeerConnection, h, h2]

/-- C10 witness: `u` has queued candidates but no connection; the call is a
no-op and idempotent. -/
theorem removePeer_absent_noop_idempotent_witness :
    removePeerConnection "u" mgrState = mgrState ∧
    removePeerConnection "u" (removePeerConnection "u" mgrState)
      = removePeerConnection "u" mgrState := by
  have h := removePeer_absent_noop_idempotent "u" mgrState
  exact ⟨h.1 (by decide), h.2⟩

end EchoMeet
